import Mathlib

/-!
Verification development for the BART rank-tracking core
(`src/BART-4.py`, `src/Py1.py`).

Strings are modelled as `List Char` (`Str`).  Selenium element and driver
interactions are modelled as pure observation records (`ElemObs`): each field
records the outcome of one accessor call made by the Python code (an
exception raised by an accessor is recorded as `none` / a flag).  Times are
passed explicitly as rational parameters.  Floating point arithmetic is
modelled over `ℚ`; all the constants involved (0.85, 0.7, 0.9, ...) are
exactly representable in binary-free comparisons performed by the code, and
no claim depends on float rounding.
-/

set_option maxRecDepth 4000

section

attribute [local semireducible] Rat.add Rat.mul Rat.sub Rat.inv Rat.ofScientific

abbrev Str := List Char

/-- Computable maximum on `ℚ` (Python `max` on two floats). -/
def maxQ (a b : ℚ) : ℚ := if a ≤ b then b else a

/-- Computable minimum on `ℚ` (Python `min` on two floats). -/
def minQ (a b : ℚ) : ℚ := if a ≤ b then a else b

/-- Lowercase a string, as Python `str.lower` does on ASCII input. -/
def toLowerStr (s : Str) : Str := s.map Char.toLower

/-- Python `str.strip()` (whitespace removed from both ends). -/
def stripWs (s : Str) : Str :=
  ((s.dropWhile Char.isWhitespace).reverse.dropWhile Char.isWhitespace).reverse

/-- Model of `re.sub(r'^https?://', '', url)`. -/
def dropSchemeHttp (s : Str) : Str :=
  if ("https://".data).isPrefixOf s then s.drop 8
  else if ("http://".data).isPrefixOf s then s.drop 7
  else s

/-- Model of `re.sub(r'^www[0-9]*\.', '', url)`. -/
def dropWww (s : Str) : Str :=
  match s with
  | 'w' :: 'w' :: 'w' :: rest =>
    match rest.dropWhile Char.isDigit with
    | '.' :: tail => tail
    | _ => s
  | _ => s

/-- Model of `re.sub(r'^m\.', '', url)`. -/
def dropM (s : Str) : Str :=
  match s with
  | 'm' :: '.' :: rest => rest
  | _ => s

/-- Model of `re.sub(r'^mobile\.', '', url)`. -/
def dropMobile (s : Str) : Str :=
  if ("mobile.".data).isPrefixOf s then s.drop 7 else s

/-- Model of `re.sub(r'^amp\.', '', url)`. -/
def dropAmp (s : Str) : Str :=
  if ("amp.".data).isPrefixOf s then s.drop 4 else s

def isLowerAZ (c : Char) : Bool := 'a' ≤ c && c ≤ 'z'

/-- Model of `re.sub(r'^[a-z]{2}\.', '', url)` (language-prefix removal). -/
def dropLang (s : Str) : Str :=
  match s with
  | a :: b :: '.' :: rest => if isLowerAZ a && isLowerAZ b then rest else s
  | _ => s

/-- Characters allowed in a URL scheme after the initial letter
(Python `urllib.parse` scheme characters). -/
def schemeChar (c : Char) : Bool := c.isAlphanum || c = '+' || c = '-' || c = '.'

/-- Scan for the `scheme:` separator; returns the remainder after `:` when the
characters before it form a valid scheme, the original string otherwise. -/
def schemeScan (orig : Str) : Str → Str
  | [] => orig
  | c :: rest => if c = ':' then rest else if schemeChar c then schemeScan orig rest else orig

/-- Remainder of a URL after the `scheme:` part, as `urllib.parse` splits it. -/
def splitSchemeRest (s : Str) : Str :=
  match s with
  | [] => []
  | c :: _ => if c.isAlpha then schemeScan s (s.drop 1) else s

def notStopChar (c : Char) : Bool := c ≠ '/' && c ≠ '?' && c ≠ '#'

/-- Model of `urlparse(s).netloc`: nonempty only when the remainder after the
scheme starts with `//`; extends to the next `/`, `?` or `#`. -/
def netlocOf (s : Str) : Str :=
  let rest := splitSchemeRest s
  if ("//".data).isPrefixOf rest then (rest.drop 2).takeWhile notStopChar else []

/-- Model of `re.sub(r':\d+$', '', domain)` (trailing port removal). -/
def dropPort (s : Str) : Str :=
  let r := s.reverse
  match r.takeWhile Char.isDigit, r.dropWhile Char.isDigit with
  | _ :: _, ':' :: tail => tail.reverse
  | _, _ => s

/-- Python `str.strip('.')`. -/
def stripDots (s : Str) : Str :=
  ((s.dropWhile (· == '.')).reverse.dropWhile (· == '.')).reverse

/-- Python `str.split('.')` (always at least one, possibly empty, part). -/
def splitDot : Str → List Str
  | [] => [[]]
  | c :: rest =>
    let r := splitDot rest
    if c = '.' then [] :: r
    else
      match r with
      | [] => [[c]]
      | h :: t => (c :: h) :: t

/-- Embedding of `AccuracyEngine.enhanced_clean_domain` (src/BART-4.py lines
81-120).  The `try/except` wrapper never fires in this pure model; the
`isinstance` guard is vacuous for `Str` inputs. -/
def enhanced_clean_domain (url : Str) : Str :=
  if url = [] then []
  else
    let u0 := toLowerStr (stripWs url)
    let u1 := dropSchemeHttp u0
    let u2 := dropWww u1
    let u3 := dropM u2
    let u4 := dropMobile u3
    let u5 := dropAmp u4
    let u6 := dropLang u5
    let u7 := if ("http".data).isPrefixOf u6 then u6 else "http://".data ++ u6
    let d0 := toLowerStr (netlocOf u7)
    let d1 := dropPort d0
    let d2 := stripDots d1
    if '.' ∈ d2 ∧ 3 ≤ d2.length then d2.takeWhile (· ≠ '/') else []

/-- Python substring containment `n in h` (contiguous). -/
def isSubstrOf (n : Str) : Str → Bool
  | [] => n.isEmpty
  | c :: t => n.isPrefixOf (c :: t) || isSubstrOf n t

def joinDots : List Str → Str
  | [] => []
  | [x] => x
  | x :: xs => x ++ '.' :: joinDots xs

/-- Python `parts[-2:]`. -/
def lastTwo (l : List Str) : List Str := l.drop (l.length - 2)

/-- One dynamic-programming row step for the longest-common-subsequence table:
`diag` is the entry above-left, `left` the entry just written. -/
def lcsRowStep (c : Char) : Str → List Nat → Nat → Nat → List Nat
  | [], _, _, _ => []
  | _ :: _, [], _, _ => []
  | bj :: bs, pj :: ps, diag, left =>
    let cur := if c = bj then diag + 1 else max left pj
    cur :: lcsRowStep c bs ps pj cur

def lcsFold (b : Str) (row : List Nat) (c : Char) : List Nat :=
  match row with
  | [] => []
  | r0 :: rs => 0 :: lcsRowStep c b rs r0 0

/-- Length of the longest common subsequence, computed row by row. -/
def lcsLen (a b : Str) : Nat :=
  (a.foldl (lcsFold b) (List.replicate (b.length + 1) 0)).getLastD 0

/-- Modelled from the spec: the composite string similarity is built from an
edit-distance ratio, a substring-containment ratio and a token-order-
insensitive ratio (the external `fuzzywuzzy` library is not part of this
repository).  The edit-distance ratio is the normalized indel similarity
`2 * LCS(a,b) / (len a + len b)`, clamped into `[0,1]`. -/
def fuzzRatio (a b : Str) : ℚ :=
  if a.length + b.length = 0 then 1
  else minQ 1 ((2 * (lcsLen a b : ℚ)) / ((a.length : ℚ) + (b.length : ℚ)))

def maxListQ (l : List ℚ) : ℚ := l.foldr maxQ 0

/-- Modelled from the spec: substring-containment ratio.  When one string is a
contiguous substring of the other the ratio is 1 (an exactly matching window
exists); otherwise it is the best edit-distance ratio of the shorter string
against a window of the longer one. -/
def fuzzContainRatio (a b : Str) : ℚ :=
  if isSubstrOf a b || isSubstrOf b a then 1
  else
    let s := if a.length ≤ b.length then a else b
    let l := if a.length ≤ b.length then b else a
    maxListQ ((List.range (l.length - s.length + 1)).map
      (fun i => fuzzRatio s ((l.drop i).take s.length)))

/-- Alphanumeric runs of a string (token split used by the token-sort ratio). -/
def tokensOf : Str → List Str
  | [] => []
  | c :: rest =>
    let r := tokensOf rest
    if c.isAlphanum then
      match rest with
      | d :: _ =>
        if d.isAlphanum then
          match r with
          | h :: t => (c :: h) :: t
          | [] => [[c]]
        else [c] :: r
      | [] => [[c]]
    else r

/-- Lexicographic comparison used to sort tokens. -/
def strLeb : Str → Str → Bool
  | [], _ => true
  | _ :: _, [] => false
  | x :: xs, y :: ys => if x = y then strLeb xs ys else decide (x < y)

def insSorted (x : Str) : List Str → List Str
  | [] => [x]
  | y :: ys => if strLeb x y then x :: y :: ys else y :: insSorted x ys

def sortToks (l : List Str) : List Str := l.foldr insSorted []

def joinSp : List Str → Str
  | [] => []
  | [x] => x
  | x :: xs => x ++ ' ' :: joinSp xs

/-- Modelled from the spec: token-order-insensitive ratio (tokens sorted, then
the edit-distance ratio of the rejoined strings). -/
def fuzzTokenSortRatio (a b : Str) : ℚ :=
  fuzzRatio (joinSp (sortToks (tokensOf a))) (joinSp (sortToks (tokensOf b)))

/-- Embedding of `AccuracyEngine.fuzzy_domain_match` (src/BART-4.py lines
123-168).  The branch order is exactly the source order: empty guard, exact
equality, composite similarity against 0.95, substring containment at 0.9,
shared registrable domain at 0.85, otherwise no match with the composite
similarity reported. -/
def fuzzy_domain_match (found_domain target_domain : Str) : Bool × ℚ :=
  if found_domain = [] ∨ target_domain = [] then (false, 0)
  else
    let found_clean := enhanced_clean_domain found_domain
    let target_clean := enhanced_clean_domain target_domain
    if found_clean = [] ∨ target_clean = [] then (false, 0)
    else if found_clean = target_clean then (true, 1)
    else
      let confidence := maxQ (fuzzRatio found_clean target_clean)
        (maxQ (fuzzContainRatio found_clean target_clean)
          (fuzzTokenSortRatio found_clean target_clean))
      if (0.95 : ℚ) ≤ confidence then (true, confidence)
      else if isSubstrOf found_clean target_clean || isSubstrOf target_clean found_clean then
        (true, 0.9)
      else
        let found_parts := splitDot found_clean
        let target_parts := splitDot target_clean
        if 2 ≤ found_parts.length ∧ 2 ≤ target_parts.length ∧
            joinDots (lastTwo found_parts) = joinDots (lastTwo target_parts) then
          (true, 0.85)
        else (false, confidence)

/-- Observation record for one result element: the outcomes of the accessor
calls that `AccuracyEngine.validate_organic_result_context`,
`UltraAccurateRankTracker._validate_position_context` and the extractor make
on a Selenium element.  A raised accessor exception is recorded as `none`
(for the ancestor markup) or as a flag. -/
structure ElemObs where
  parentHtml : Option Str
  titleDescOk : Bool
  mainAncestor : Bool
  posLookupFails : Bool
  href : Option Str
deriving DecidableEq, Repr

/-- Exclusion markers scanned for in the parent container markup
(src/BART-4.py lines 178-183). -/
def contextExcludePatterns : List Str :=
  ["ads-fr".data, "commercial".data, "sponsored".data, "ad_cclk".data,
   "googleads".data, "shopping".data, "tbm=shop".data, "knowledge".data,
   "kp-".data, "mnr-c".data, "people also ask".data, "related questions".data,
   "accordion".data, "featured snippet".data, "rich snippet".data,
   "carousel".data]

/-- Embedding of `AccuracyEngine.validate_organic_result_context`
(src/BART-4.py lines 170-204): exception on the ancestor lookup gives
`(false, 0)`, any exclusion marker in the container markup gives
`(false, 0)`, a container exposing both heading and snippet gives
`(true, 1)`, anything else `(false, 0.5)`. -/
def validate_organic_result_context (e : ElemObs) : Bool × ℚ :=
  match e.parentHtml with
  | none => (false, 0)
  | some html =>
    if contextExcludePatterns.any (fun p => isSubstrOf p html) then (false, 0)
    else if e.titleDescOk then (true, 1)
    else (false, 0.5)

/-- URL exclusion markers of `UltraAccurateResultExtractor.is_valid_organic_result`
(src/BART-4.py lines 262-272). -/
def urlExcludePatterns : List Str :=
  ["google.com".data, "googleusercontent.com".data, "youtube.com/redirect".data,
   "accounts.google".data, "support.google".data, "policies.google".data,
   "webcache.googleusercontent".data, "translate.google".data,
   "maps.google".data, "shopping.google".data, "images.google".data,
   "news.google".data, "books.google".data, "scholar.google".data,
   "patents.google".data, "finance.google".data, "javascript:".data,
   "mailto:".data, "tel:".data, "/search?".data, "/preferences?".data,
   "tbm=isch".data, "tbm=vid".data, "tbm=nws".data, "tbm=shop".data,
   "googleads".data, "googlesyndication".data, "googleadservices".data,
   "/aclk?".data, "/url?q=".data, "doubleclick.net".data,
   "googletagmanager.com".data, "google-analytics.com".data]

/-- Embedding of `UltraAccurateResultExtractor.is_valid_organic_result`
(src/BART-4.py lines 255-290). -/
def is_valid_organic_result (url : Str) : Bool :=
  if url = [] then false
  else
    let urlLower := toLowerStr url
    if urlExcludePatterns.any (fun p => isSubstrOf p urlLower) then false
    else if !(("http://".data).isPrefixOf urlLower || ("https://".data).isPrefixOf urlLower) then
      false
    else
      let nl := netlocOf urlLower
      if nl = [] ∨ nl.length < 3 then false else true

/-- Filter applied by the extractor to the elements returned by one CSS
selector (src/BART-4.py lines 236-242): a nonempty href passing the URL
filter, and a context validation returning valid with confidence at least
0.8. -/
def extractorKeep (e : ElemObs) : Bool :=
  match e.href with
  | none => false
  | some h =>
    !h.isEmpty && is_valid_organic_result h &&
      ((validate_organic_result_context e).1 && decide ((0.8 : ℚ) ≤ (validate_organic_result_context e).2))

/-- Embedding of `UltraAccurateResultExtractor.remove_duplicate_results`
(src/BART-4.py lines 292-307): keep an element when its href is present,
nonempty and not seen before. -/
def removeDupGo (seen : List Str) : List ElemObs → List ElemObs
  | [] => []
  | e :: rest =>
    match e.href with
    | some u => if !u.isEmpty && !seen.contains u
        then e :: removeDupGo (u :: seen) rest
        else removeDupGo seen rest
    | none => removeDupGo seen rest

def remove_duplicate_results (l : List ElemObs) : List ElemObs := removeDupGo [] l

/-- First strategy (CSS selector) whose filtered element list is nonempty
(first-success-wins, src/BART-4.py lines 232-249). -/
def firstSuccess : List (List ElemObs) → List ElemObs
  | [] => []
  | s :: rest => let kept := s.filter extractorKeep
                 if kept.isEmpty then firstSuccess rest else kept

/-- Embedding of `UltraAccurateResultExtractor.get_ultra_precise_organic_results`
(src/BART-4.py lines 227-253): first-success-wins over the selector
strategies, then URL deduplication, then the top 10. -/
def get_ultra_precise_organic_results (strategies : List (List ElemObs)) : List ElemObs :=
  (remove_duplicate_results (firstSuccess strategies)).take 10

/-- Embedding of `UltraAccurateRankTracker._validate_url_structure`
(src/BART-4.py lines 691-706): compares the netloc of the candidate URL
with the netloc of `http://` plus the target domain. -/
def validate_url_structure (url target_domain : Str) : ℚ :=
  let pu := netlocOf (toLowerStr url)
  let pt := netlocOf ("http://".data ++ toLowerStr target_domain)
  if pu = pt then 1
  else if isSubstrOf pt pu || isSubstrOf pu pt then 0.9
  else 0

/-- Embedding of `UltraAccurateRankTracker._validate_title_relevance`
(src/BART-4.py lines 708-723). -/
def validate_title_relevance (title keyword target_domain : Str) : ℚ :=
  if title = [] then 0
  else
    let titleLower := toLowerStr title
    let keywordLower := toLowerStr keyword
    let domainLower := toLowerStr target_domain
    (if isSubstrOf keywordLower titleLower then (0.5 : ℚ) else 0) +
      (if (splitDot domainLower).any (fun p => isSubstrOf p titleLower) then (0.5 : ℚ) else 0)

/-- Embedding of `UltraAccurateRankTracker._validate_position_context`
(src/BART-4.py lines 725-741): 1.0 when an ancestor in the main results
region is found, 0.5 when the lookups fail quietly, 0.3 on an outer
exception. -/
def validate_position_context (e : ElemObs) : ℚ :=
  if e.posLookupFails then 0.3
  else if e.mainAncestor then 1 else 0.5

def validTlds : List Str :=
  [".com".data, ".org".data, ".net".data, ".edu".data, ".gov".data,
   ".io".data, ".co".data, ".uk".data]

/-- Embedding of `UltraAccurateRankTracker._validate_domain_authority`
(src/BART-4.py lines 743-761). -/
def validate_domain_authority (found_domain target_domain : Str) : ℚ :=
  if found_domain = [] ∨ target_domain = [] then 0
  else
    let hasValidTld := validTlds.any (fun t => t.isSuffixOf found_domain)
    let parts := splitDot found_domain
    let hasValidStructure := decide (2 ≤ parts.length) && parts.all (fun p => !p.isEmpty)
    if hasValidTld && hasValidStructure then 1
    else if hasValidStructure then 0.7
    else 0.3

/-- Embedding of `UltraAccurateRankTracker._validate_consistency`
(src/BART-4.py lines 763-781). -/
def validate_consistency (found_domain url title _target_domain : Str) : ℚ :=
  let s1 : ℚ := if found_domain ≠ [] ∧ url ≠ [] ∧ isSubstrOf found_domain (toLowerStr url)
    then 0.4 else 0
  let s2 : ℚ := if found_domain ≠ [] ∧ title ≠ [] ∧
      (splitDot found_domain).any (fun p => decide (2 < p.length) && isSubstrOf p (toLowerStr title))
    then 0.3 else 0
  let s3 : ℚ := if found_domain ≠ [] ∧ url ≠ [] ∧ title ≠ [] ∧ 10 < title.length
    then 0.3 else 0
  minQ (s1 + s2 + s3) 1

/-- The seven layer scores, in source order (src/BART-4.py lines 646-674). -/
def validationScores (keyword found_domain target_domain url title : Str) (e : ElemObs) :
    List ℚ :=
  let fuzzyRes := fuzzy_domain_match found_domain target_domain
  let l1 : ℚ := if fuzzyRes.1 then fuzzyRes.2 else 0
  let ctx := validate_organic_result_context e
  let l2 : ℚ := if ctx.1 then ctx.2 else 0
  let l3 := validate_url_structure url target_domain
  let l4 := validate_title_relevance title keyword target_domain
  let l5 := validate_position_context e
  let l6 := validate_domain_authority found_domain target_domain
  let l7 := validate_consistency found_domain url title target_domain
  [l1, l2, l3, l4, l5, l6, l7]

/-- Python `min` over a nonempty list (0 as a formal default for `[]`). -/
def listMin : List ℚ → ℚ
  | [] => 0
  | [x] => x
  | x :: y :: ys => minQ x (listMin (y :: ys))

/-- Embedding of `UltraAccurateRankTracker._seven_layer_validation`
(src/BART-4.py lines 642-689): the mean of the seven scores
(`statistics.mean` of the 7-element list), their minimum, the aggregate
`(mean + min) / 2`, and the dual-threshold decision. -/
def seven_layer_validation (keyword found_domain target_domain url title : Str)
    (e : ElemObs) : Bool × ℚ :=
  let scores := validationScores keyword found_domain target_domain url title e
  let avgConfidence := scores.sum / 7
  let minConfidence := listMin scores
  let finalConfidence := (avgConfidence + minConfidence) / 2
  (decide ((0.85 : ℚ) ≤ finalConfidence) && decide ((0.7 : ℚ) ≤ minConfidence),
    finalConfidence)

/-- One extracted result candidate as observed by the page-scan loop of
`UltraAccurateRankTracker._perform_search_with_validation`: its href, the
title produced by `_get_title_ultra_safe`, and the element observations. -/
structure Cand where
  url : Str
  title : Str
  elem : ElemObs
deriving DecidableEq, Repr

/-- Scan one page of candidates in rank order (src/BART-4.py lines 588-626):
the i-th candidate of page `pageNum` gets position
`(pageNum - 1) * 10 + i + 1`. -/
def scanPage (v : α → Bool) (pageNum : Nat) : List α → Nat → Option (Nat × Nat)
  | [], _ => none
  | c :: cs, i =>
    if v c then some ((pageNum - 1) * 10 + i + 1, pageNum)
    else scanPage v pageNum cs (i + 1)

/-- Page-by-page scan (src/BART-4.py lines 576-631), pages numbered from 1. -/
def scanPagesGo (v : α → Bool) : List (List α) → Nat → Option (Nat × Nat)
  | [], _ => none
  | pg :: rest, n =>
    match scanPage v n pg 0 with
    | some r => some r
    | none => scanPagesGo v rest (n + 1)

def scanPages (v : α → Bool) (pages : List (List α)) : Option (Nat × Nat) :=
  scanPagesGo v pages 1

/-- The validator applied to each candidate by the scan loop
(src/BART-4.py lines 597-602): seven-layer validation of the cleaned found
domain against the cleaned target. -/
def candMatch (keyword target_domain : Str) (c : Cand) : Bool :=
  (seven_layer_validation keyword (enhanced_clean_domain c.url)
    (enhanced_clean_domain target_domain) c.url c.title c.elem).1

/-- Embedding of the search loop of
`UltraAccurateRankTracker._perform_search_with_validation`
(src/BART-4.py lines 576-633): `pages` lists the candidates extracted from
each successive results page; at most `maxPages` pages are scanned
(`range(1, max_pages + 1)`); the returned pair is (position, page). -/
def perform_search_scan (keyword target_domain : Str) (maxPages : Nat)
    (pages : List (List Cand)) : Option (Nat × Nat) :=
  scanPages (candMatch keyword target_domain) (pages.take maxPages)

/-- Outcome of one full crawl attempt as seen by the retry loop of
`track_ranking_with_validation`: a found result (with its position, page and
confidence), a completed crawl without a match (`None` in the source), or a
raised exception. -/
inductive AttemptOutcome where
  | found (position page : Nat) (confidence : ℚ)
  | noResult
  | error
deriving DecidableEq, Repr

/-- The single result record returned per keyword: a found record or the
terminal not-found record carrying the attempt bound
(src/BART-4.py lines 515-525). -/
inductive RankOutcome where
  | matched (position page : Nat) (confidence : ℚ)
  | notFound (attempts : Nat)
deriving DecidableEq, Repr

/-- Embedding of the retry loop of
`UltraAccurateRankTracker.track_ranking_with_validation`
(src/BART-4.py lines 477-525).  `fuel` counts attempts still available,
`i` is the 0-based attempt index; the second component counts the crawl
attempts actually performed.  A found result returns immediately; an
exception on the last attempt breaks; otherwise the loop retries; after the
loop the terminal not-found record (annotated with `maxRetries`) is
returned.  The function is structurally recursive, so the controller always
terminates. -/
def trackGo (maxRetries : Nat) (att : Nat → AttemptOutcome) (stop : Nat → Bool) :
    Nat → Nat → RankOutcome × Nat
  | 0, _ => (.notFound maxRetries, 0)
  | fuel + 1, i =>
    if stop i then (.notFound maxRetries, 0)
    else
      match att i with
      | .found p pg c => (.matched p pg c, 1)
      | .noResult =>
        let r := trackGo maxRetries att stop fuel (i + 1)
        (r.1, r.2 + 1)
      | .error =>
        if fuel = 0 then (.notFound maxRetries, 1)
        else
          let r := trackGo maxRetries att stop fuel (i + 1)
          (r.1, r.2 + 1)

/-- The retry controller: `maxRetries` iterations (`for attempt in
range(self.max_retries)`, with `self.max_retries = 5` in `__init__`),
starting at attempt 0. -/
def track_ranking_with_validation (maxRetries : Nat) (att : Nat → AttemptOutcome)
    (stop : Nat → Bool) : RankOutcome × Nat :=
  trackGo maxRetries att stop maxRetries 0

/-- Floor of a rational as an integer (Python `math.floor` semantics). -/
def floorQ (q : ℚ) : ℤ := q.num.fdiv q.den

/-- Round-half-to-even on rationals (the rounding used by Python `round`;
claims never hit a tie, so only the non-tie cases matter). -/
def roundHalfEven (q : ℚ) : ℤ :=
  let n := floorQ q
  let f := q - n
  if f < 1/2 then n
  else if 1/2 < f then n + 1
  else if n % 2 = 0 then n else n + 1

/-- Python `round(q, 2)`. -/
def round2 (q : ℚ) : ℚ := (roundHalfEven (q * 100) : ℚ) / 100

/-- State of `StatisticsEngine` (src/BART-4.py lines 309-359).
`keywordStart` holds the last `record_keyword_start` time (0 before any,
standing in for the unset Python attribute, which no claim exercises). -/
structure StatsState where
  totalKeywords : Nat
  processedKeywords : Nat
  successfulMatches : Nat
  failedMatches : Nat
  processingTimes : List ℚ
  confidenceScores : List ℚ
  startTime : Option ℚ
  currentKeyword : Str
  currentPage : Nat
  errorsEncountered : Nat
  retryCount : Nat
  keywordStart : ℚ
deriving DecidableEq, Repr

def resetStats : StatsState :=
  ⟨0, 0, 0, 0, [], [], none, [], 0, 0, 0, 0⟩

/-- The mutating calls of `StatisticsEngine`, with call times passed
explicitly. -/
inductive StatsOp where
  | startSession (total : Nat) (t : ℚ)
  | keywordStart (kw : Str) (t : ℚ)
  | keywordResult (found : Bool) (confidence : ℚ) (page : Nat) (t : ℚ)
  | recordError
  | recordRetry
deriving DecidableEq, Repr

/-- Embedding of the `StatisticsEngine` update methods
(src/BART-4.py lines 329-359). -/
def statsStep (s : StatsState) : StatsOp → StatsState
  | .startSession total t => { resetStats with totalKeywords := total, startTime := some t }
  | .keywordStart kw t => { s with currentKeyword := kw, keywordStart := t }
  | .keywordResult found confidence page t =>
    let s1 := { s with
      processingTimes := s.processingTimes ++ [t - s.keywordStart],
      processedKeywords := s.processedKeywords + 1,
      currentPage := page }
    if found then
      { s1 with successfulMatches := s1.successfulMatches + 1,
                confidenceScores := s1.confidenceScores ++ [confidence] }
    else { s1 with failedMatches := s1.failedMatches + 1 }
  | .recordError => { s with errorsEncountered := s.errorsEncountered + 1 }
  | .recordRetry => { s with retryCount := s.retryCount + 1 }

/-- A statistics state reached by a sequence of recorded calls. -/
def statsRun (ops : List StatsOp) : StatsState := ops.foldl statsStep resetStats

def meanQ (l : List ℚ) : ℚ := l.sum / l.length

/-- The snapshot dictionary returned by `get_current_stats`. -/
structure StatsSnapshot where
  accuracy : ℚ
  successRate : ℚ
  processingSpeed : ℚ
  avgConfidence : ℚ
  progress : ℚ
  errors : Nat
  retries : Nat
  elapsedTime : ℚ
  estimatedRemaining : ℚ
deriving DecidableEq, Repr

/-- Embedding of `StatisticsEngine.get_current_stats`
(src/BART-4.py lines 361-402), with the current time passed explicitly. -/
def get_current_stats (s : StatsState) (now : ℚ) : StatsSnapshot :=
  if s.totalKeywords = 0 then ⟨0, 0, 0, 0, 0, 0, 0, 0, 0⟩
  else
    let accuracy := ((s.successfulMatches : ℚ) / (max 1 s.processedKeywords : Nat)) * 100
    let successRate := ((s.successfulMatches : ℚ) / (max 1 s.totalKeywords : Nat)) * 100
    let processingSpeed : ℚ :=
      if s.processingTimes ≠ [] then
        let avgTime := meanQ s.processingTimes
        if 0 < avgTime then 60 / avgTime else 0
      else 0
    let avgConfidence : ℚ := if s.confidenceScores ≠ [] then meanQ s.confidenceScores else 0
    let progress := ((s.processedKeywords : ℚ) / (s.totalKeywords : ℚ)) * 100
    let elapsed : ℚ := match s.startTime with
      | some t0 => now - t0
      | none => 0
    let remaining : ℚ := (s.totalKeywords : ℚ) - (s.processedKeywords : ℚ)
    let estimated : ℚ := if s.processingTimes ≠ [] then remaining * meanQ s.processingTimes else 0
    ⟨round2 accuracy, round2 successRate, round2 processingSpeed,
      round2 (avgConfidence * 100), round2 progress, s.errorsEncountered,
      s.retryCount, round2 elapsed, round2 estimated⟩

/-- The `estimated_time_remaining` display of the Py1 tracker (the formatted
string is abstracted to its numeric content). -/
inductive EtaDisplay where
  | calculating
  | seconds (x : ℚ)
  | minutes (x : ℚ)
deriving DecidableEq, Repr

/-- State of `StatisticsTracker` (src/Py1.py lines 79-162).  The
`processing_times` deque has `maxlen=50`; `keywordStartTime` is `none`
until `start_keyword_processing` first runs (the `hasattr` check). -/
structure TrackerState where
  totalKeywords : Nat
  keywordsProcessed : Nat
  keywordsFound : Nat
  keywordsNotFound : Nat
  currentKeyword : Str
  currentProgress : ℚ
  estimatedTimeRemaining : EtaDisplay
  processingSpeed : ℚ
  accuracyRate : ℚ
  processingTimes : List ℚ
  keywordStartTime : Option ℚ
deriving DecidableEq, Repr

/-- Embedding of `StatisticsTracker.reset_session` (src/Py1.py lines 87-98):
counters and rates are zeroed; the processing-times deque is not touched. -/
def reset_session (s : TrackerState) : TrackerState :=
  { s with totalKeywords := 0, keywordsProcessed := 0, keywordsFound := 0,
           keywordsNotFound := 0, currentKeyword := [], currentProgress := 0,
           estimatedTimeRemaining := .calculating, processingSpeed := 0,
           accuracyRate := 0 }

/-- Fresh tracker state (`__init__`: `reset_session` plus an empty deque). -/
def initTracker : TrackerState :=
  reset_session ⟨0, 0, 0, 0, [], 0, .calculating, 0, 0, [], none⟩

/-- Append to a deque with `maxlen = 50`. -/
def pushMax50 (l : List ℚ) (x : ℚ) : List ℚ :=
  let l2 := l ++ [x]
  l2.drop (l2.length - 50)

/-- Python `list[-10:]`. -/
def lastTen (l : List ℚ) : List ℚ := l.drop (l.length - 10)

/-- Embedding of `StatisticsTracker.complete_keyword_processing`
(src/Py1.py lines 109-155), with the completion time passed explicitly. -/
def complete_keyword_processing (s : TrackerState) (found : Bool) (now : ℚ) :
    TrackerState :=
  let processed := s.keywordsProcessed + 1
  let foundCnt := if found then s.keywordsFound + 1 else s.keywordsFound
  let notFoundCnt := if found then s.keywordsNotFound else s.keywordsNotFound + 1
  let times := match s.keywordStartTime with
    | some t0 => pushMax50 s.processingTimes (now - t0)
    | none => s.processingTimes
  let progress : ℚ :=
    if 0 < s.totalKeywords then ((processed : ℚ) / (s.totalKeywords : ℚ)) * 100 else 0
  let speed : ℚ :=
    if times ≠ [] then
      let recent := lastTen times
      let avgTime := recent.sum / (recent.length : ℚ)
      let sp := if 0 < avgTime then 60 / avgTime else 0
      if 30 < avgTime then maxQ 1.5 sp else sp
    else 0
  let accuracy : ℚ :=
    if 0 < processed then
      minQ 99.9 (99.8 + (((foundCnt : ℚ) / (processed : ℚ)) * 100) * 0.001)
    else 100
  let eta : EtaDisplay :=
    if 0 < speed then
      let minutesRemaining := (((s.totalKeywords : ℚ) - (processed : ℚ))) / speed
      if minutesRemaining < 1 then .seconds (minutesRemaining * 60)
      else .minutes minutesRemaining
    else .calculating
  { s with keywordsProcessed := processed, keywordsFound := foundCnt,
           keywordsNotFound := notFoundCnt, processingTimes := times,
           currentProgress := progress, processingSpeed := speed,
           accuracyRate := accuracy, estimatedTimeRemaining := eta }

/-- Syntactic conditions making a string a fixed point of every stage of the
domain-normalization pipeline: already trimmed and lowercased, no strippable
prefix (scheme, www, m., mobile., amp., two-letter language label), not
beginning with the characters h-t-t-p, no path/query/fragment stop character,
no trailing port, no surrounding dots, and a valid domain shape (a dot,
length at least 3). -/
def cleanFixed (d : Str) : Prop :=
  stripWs d = d ∧ toLowerStr d = d ∧ dropSchemeHttp d = d ∧ dropWww d = d ∧
  dropM d = d ∧ dropMobile d = d ∧ dropAmp d = d ∧ dropLang d = d ∧
  ("http".data).isPrefixOf d = false ∧ (∀ c ∈ d, notStopChar c = true) ∧
  dropPort d = d ∧ stripDots d = d ∧ '.' ∈ d ∧ 3 ≤ d.length

instance (d : Str) : Decidable (cleanFixed d) := by
  unfold cleanFixed
  infer_instance

/-- Concrete inputs used to instantiate the theorems below. -/
def blogExampleCom : Str := "blog.example.com".data

def exampleCom : Str := "example.com".data

def urlAbCd : Str := "https://ab.cd.example.com".data

def urlXyAbCo : Str := "xy.ab.co".data

def abCo : Str := "ab.co".data

def kwWord : Str := "keyword".data

def urlExamplePage : Str := "https://example.com/page".data

def titleExample : Str := "Example keyword deals online".data

def elemGoodW : ElemObs := ⟨some [], true, true, false, none⟩

def kwShoes : Str := "shoes".data

def candGood : Cand :=
  ⟨"https://example.com/page".data, "Example shoes deals online".data,
    ⟨some [], true, true, false, none⟩⟩

def candBad : Cand := ⟨[], [], ⟨none, false, false, true, none⟩⟩

def elemA : ElemObs := ⟨some [], true, true, false, some ("https://alpha.com/x".data)⟩

def elemB : ElemObs := ⟨some [], true, true, false, some ("https://beta.com/y".data)⟩

def elemADup : ElemObs := ⟨some [], true, false, true, some ("https://alpha.com/x".data)⟩

def stratW : List (List ElemObs) := [[], [elemA, elemB, elemADup]]

lemma minQ_eq (a b : ℚ) : minQ a b = min a b := by
  unfold minQ
  split_ifs with h
  · exact (min_eq_left h).symm
  · exact (min_eq_right (le_of_not_le h)).symm

lemma maxQ_eq (a b : ℚ) : maxQ a b = max a b := by
  unfold maxQ
  split_ifs with h
  · exact (max_eq_right h).symm
  · exact (max_eq_left (le_of_not_le h)).symm

lemma listMin_cons₂ (a b : ℚ) (u : List ℚ) :
    listMin (a :: b :: u) = min a (listMin (b :: u)) := by
  rw [show listMin (a :: b :: u) = minQ a (listMin (b :: u)) from rfl, minQ_eq]

lemma takeWhile_eq_self {p : Char → Bool} :
    ∀ {l : Str}, (∀ c ∈ l, p c = true) → l.takeWhile p = l := by
  intro l
  induction l with
  | nil => intro _; rfl
  | cons c t ih =>
    intro h
    simp [List.takeWhile_cons, h c (List.mem_cons_self c t), ih
      (fun x hx => h x (List.mem_cons_of_mem c hx))]

lemma listMin_le_of_mem : ∀ (l : List ℚ) (x : ℚ), x ∈ l → listMin l ≤ x := by
  intro l
  induction l with
  | nil => simp
  | cons a t ih =>
    intro x hx
    cases t with
    | nil =>
      rcases List.mem_cons.mp hx with h | h
      · subst h; exact le_refl _
      · simp at h
    | cons b u =>
      rw [listMin_cons₂]
      rcases List.mem_cons.mp hx with h | h
      · subst h; exact min_le_left _ _
      · exact le_trans (min_le_right _ _) (ih x h)

lemma listMin_mem : ∀ (l : List ℚ), l ≠ [] → listMin l ∈ l := by
  intro l
  induction l with
  | nil => intro h; exact absurd rfl h
  | cons a t ih =>
    intro _
    cases t with
    | nil => exact List.mem_singleton.mpr rfl
    | cons b u =>
      rcases le_total a (listMin (b :: u)) with h | h
      · have he : listMin (a :: b :: u) = a := by
          rw [listMin_cons₂]
          exact min_eq_left h
        rw [he]
        exact List.mem_cons_self _ _
      · have he : listMin (a :: b :: u) = listMin (b :: u) := by
          rw [listMin_cons₂]
          exact min_eq_right h
        rw [he]
        exact List.mem_cons_of_mem a (ih (by simp))

lemma sum_bounds : ∀ (l : List ℚ), (∀ x ∈ l, 0 ≤ x ∧ x ≤ 1) →
    0 ≤ l.sum ∧ l.sum ≤ l.length := by
  intro l
  induction l with
  | nil => intro _; simp
  | cons a t ih =>
    intro h
    have ha := h a (List.mem_cons_self a t)
    have ht := ih (fun x hx => h x (List.mem_cons_of_mem a hx))
    constructor
    · simp only [List.sum_cons]; linarith [ha.1, ht.1]
    · simp only [List.sum_cons, List.length_cons]
      push_cast
      linarith [ha.2, ht.2]

lemma fuzzRatio_nonneg (a b : Str) : 0 ≤ fuzzRatio a b := by
  unfold fuzzRatio
  split
  · norm_num
  · rw [minQ_eq]
    exact le_min (by norm_num) (by positivity)

lemma fuzzRatio_le_one (a b : Str) : fuzzRatio a b ≤ 1 := by
  unfold fuzzRatio
  split
  · exact le_refl _
  · rw [minQ_eq]
    exact min_le_left _ _

lemma maxListQ_cons (a : ℚ) (t : List ℚ) : maxListQ (a :: t) = max a (maxListQ t) := by
  rw [show maxListQ (a :: t) = maxQ a (maxListQ t) from rfl, maxQ_eq]

lemma maxListQ_nonneg (l : List ℚ) : 0 ≤ maxListQ l := by
  induction l with
  | nil => exact le_refl _
  | cons a t ih =>
    rw [maxListQ_cons]
    exact le_max_of_le_right ih

lemma maxListQ_le_one {l : List ℚ} (h : ∀ x ∈ l, x ≤ 1) : maxListQ l ≤ 1 := by
  induction l with
  | nil => norm_num [maxListQ]
  | cons a t ih =>
    rw [maxListQ_cons]
    exact max_le (h a (List.mem_cons_self a t))
      (ih (fun x hx => h x (List.mem_cons_of_mem a hx)))

lemma fuzzContainRatio_nonneg (a b : Str) : 0 ≤ fuzzContainRatio a b := by
  unfold fuzzContainRatio
  split
  · norm_num
  · exact maxListQ_nonneg _

lemma fuzzContainRatio_le_one (a b : Str) : fuzzContainRatio a b ≤ 1 := by
  unfold fuzzContainRatio
  split
  · exact le_refl _
  · refine maxListQ_le_one ?_
    intro x hx
    rcases List.mem_map.mp hx with ⟨i, _, rfl⟩
    exact fuzzRatio_le_one _ _

lemma fuzzTokenSortRatio_nonneg (a b : Str) : 0 ≤ fuzzTokenSortRatio a b :=
  fuzzRatio_nonneg _ _

lemma fuzzTokenSortRatio_le_one (a b : Str) : fuzzTokenSortRatio a b ≤ 1 :=
  fuzzRatio_le_one _ _

lemma fuzzy_conf_bounds (f t : Str) :
    0 ≤ (fuzzy_domain_match f t).2 ∧ (fuzzy_domain_match f t).2 ≤ 1 := by
  have hr := fuzzRatio_nonneg (enhanced_clean_domain f) (enhanced_clean_domain t)
  have hr1 := fuzzRatio_le_one (enhanced_clean_domain f) (enhanced_clean_domain t)
  have hc1 := fuzzContainRatio_le_one (enhanced_clean_domain f) (enhanced_clean_domain t)
  have hts1 := fuzzTokenSortRatio_le_one (enhanced_clean_domain f) (enhanced_clean_domain t)
  simp only [fuzzy_domain_match, maxQ_eq]
  split_ifs with h1 h2 h3 h4 h5 h6
  · exact ⟨le_refl 0, by norm_num⟩
  · exact ⟨le_refl 0, by norm_num⟩
  · exact ⟨by norm_num, le_refl 1⟩
  · exact ⟨le_trans hr (le_max_left _ _), max_le hr1 (max_le hc1 hts1)⟩
  · exact ⟨by norm_num, by norm_num⟩
  · exact ⟨by norm_num, by norm_num⟩
  · exact ⟨le_trans hr (le_max_left _ _), max_le hr1 (max_le hc1 hts1)⟩

lemma context_cases (e : ElemObs) :
    validate_organic_result_context e = (false, 0) ∨
    validate_organic_result_context e = (true, 1) ∨
    validate_organic_result_context e = (false, 0.5) := by
  rcases he : e.parentHtml with _ | html
  · simp [validate_organic_result_context, he]
  · simp only [validate_organic_result_context, he]
    split_ifs with h1 h2
    · exact Or.inl rfl
    · exact Or.inr (Or.inl rfl)
    · exact Or.inr (Or.inr rfl)

lemma url_structure_bounds (url t : Str) :
    0 ≤ validate_url_structure url t ∧ validate_url_structure url t ≤ 1 := by
  simp only [validate_url_structure]
  split_ifs <;> norm_num

lemma title_relevance_bounds (title kw t : Str) :
    0 ≤ validate_title_relevance title kw t ∧ validate_title_relevance title kw t ≤ 1 := by
  simp only [validate_title_relevance]
  split_ifs <;> norm_num

lemma position_context_bounds (e : ElemObs) :
    0 ≤ validate_position_context e ∧ validate_position_context e ≤ 1 := by
  simp only [validate_position_context]
  split_ifs <;> norm_num

lemma domain_authority_bounds (f t : Str) :
    0 ≤ validate_domain_authority f t ∧ validate_domain_authority f t ≤ 1 := by
  simp only [validate_domain_authority]
  split_ifs <;> norm_num

lemma consistency_bounds (f url title t : Str) :
    0 ≤ validate_consistency f url title t ∧ validate_consistency f url title t ≤ 1 := by
  simp only [validate_consistency, minQ_eq]
  constructor
  · refine le_min ?_ (by norm_num)
    split_ifs <;> norm_num
  · exact min_le_right _ _

lemma validationScores_bounds (kw f t url title : Str) (e : ElemObs) :
    ∀ s ∈ validationScores kw f t url title e, 0 ≤ s ∧ s ≤ 1 := by
  intro s hs
  simp only [validationScores, List.mem_cons, List.not_mem_nil, or_false] at hs
  rcases hs with rfl | rfl | rfl | rfl | rfl | rfl | rfl
  · cases hb : (fuzzy_domain_match f t).1
    · simp [hb]
    · simpa [hb] using fuzzy_conf_bounds f t
  · rcases context_cases e with h | h | h <;> rw [h] <;> norm_num
  · exact url_structure_bounds url t
  · exact title_relevance_bounds title kw t
  · exact position_context_bounds e
  · exact domain_authority_bounds f t
  · exact consistency_bounds f url title t

lemma isSubstrOf_of_infix : ∀ (h n : Str), n <:+: h → isSubstrOf n h = true := by
  intro h
  induction h with
  | nil =>
    intro n hn
    have : n = [] := List.eq_nil_of_infix_nil hn
    subst this
    rfl
  | cons c t ih =>
    intro n hn
    rcases hn with ⟨s, u, he⟩
    cases s with
    | nil =>
      simp only [List.nil_append] at he
      have hp : n <+: c :: t := ⟨u, he⟩
      simp [isSubstrOf, List.isPrefixOf_iff_prefix.mpr hp]
    | cons x s' =>
      simp only [List.cons_append] at he
      injection he with h1 h2
      have : n <:+: t := ⟨s', u, h2⟩
      simp [isSubstrOf, ih n this]

lemma isSubstrOf_of_dotSuffix {d l : Str} (h : ('.' :: d) <:+ l) : isSubstrOf d l = true := by
  refine isSubstrOf_of_infix l d ?_
  have h1 : d <:+ ('.' :: d) := ⟨['.'], rfl⟩
  exact (h1.trans h).isInfix

lemma netloc_http_append (d : Str) :
    netlocOf ('h' :: 't' :: 't' :: 'p' :: ':' :: '/' :: '/' :: d) = d.takeWhile notStopChar := by
  simp [netlocOf, splitSchemeRest, schemeScan, schemeChar]

lemma clean_fixed_point (d : Str) (h : cleanFixed d) : enhanced_clean_domain d = d := by
  obtain ⟨h1, h2, h3, h4, h5, h6, h7, h8, h9, h10, h11, h12, h13, h14⟩ := h
  have hne : d ≠ [] := List.ne_nil_of_mem h13
  have htake : d.takeWhile notStopChar = d := takeWhile_eq_self h10
  have hslash : d.takeWhile (· ≠ '/') = d := by
    refine takeWhile_eq_self ?_
    intro c hc
    have := h10 c hc
    simp only [notStopChar, Bool.and_eq_true, decide_eq_true_eq] at this
    simpa using this.1.1
  simp only [enhanced_clean_domain, if_neg hne, h1, h2, h3, h4, h5, h6, h7, h8, h9,
    Bool.false_eq_true, if_false, List.cons_append, List.nil_append,
    netloc_http_append, htake, h11, h12]
  rw [if_pos (And.intro h13 h14), hslash]

lemma trackGo_count_le (mr : Nat) (att : Nat → AttemptOutcome) (stop : Nat → Bool) :
    ∀ (fuel i : Nat), (trackGo mr att stop fuel i).2 ≤ fuel := by
  intro fuel
  induction fuel with
  | zero => intro i; simp [trackGo]
  | succ n ih =>
    intro i
    simp only [trackGo]
    split
    · simp
    · split
      · simp
      · simpa using Nat.succ_le_succ (ih (i + 1))
      · split
        · simp
        · simpa using Nat.succ_le_succ (ih (i + 1))

lemma trackGo_notFound (mr : Nat) (att : Nat → AttemptOutcome) (stop : Nat → Bool) :
    ∀ (fuel i : Nat), (∀ j, i ≤ j → j < i + fuel → ∀ p pg c, att j ≠ .found p pg c) →
      (trackGo mr att stop fuel i).1 = .notFound mr := by
  intro fuel
  induction fuel with
  | zero => intro i _; simp [trackGo]
  | succ n ih =>
    intro i h
    simp only [trackGo]
    split
    · simp
    · split
      case h_1 p pg c heq =>
        exact absurd heq (h i (le_refl i) (by omega) p pg c)
      case h_2 heq =>
        simpa using ih (i + 1) (fun j hj1 hj2 => h j (by omega) (by omega))
      case h_3 heq =>
        split
        · simp
        · simpa using ih (i + 1) (fun j hj1 hj2 => h j (by omega) (by omega))

lemma trackGo_result_shape (mr : Nat) (att : Nat → AttemptOutcome) (stop : Nat → Bool) :
    ∀ (fuel i : Nat),
      (∃ j p pg c, i ≤ j ∧ j < i + fuel ∧ att j = .found p pg c ∧
        (trackGo mr att stop fuel i).1 = .matched p pg c) ∨
      (trackGo mr att stop fuel i).1 = .notFound mr := by
  intro fuel
  induction fuel with
  | zero => intro i; right; simp [trackGo]
  | succ n ih =>
    intro i
    simp only [trackGo]
    split
    · right; simp
    · split
      case h_1 p pg c heq =>
        left
        exact ⟨i, p, pg, c, le_refl i, by omega, heq, rfl⟩
      case h_2 heq =>
        rcases ih (i + 1) with ⟨j, p, pg, c, hj1, hj2, hatt, hres⟩ | hres
        · left
          exact ⟨j, p, pg, c, by omega, by omega, hatt, by simpa using hres⟩
        · right
          simpa using hres
      case h_3 heq =>
        split
        · right; simp
        · rcases ih (i + 1) with ⟨j, p, pg, c, hj1, hj2, hatt, hres⟩ | hres
          · left
            exact ⟨j, p, pg, c, by omega, by omega, hatt, by simpa using hres⟩
          · right
            simpa using hres

lemma removeDupGo_sublist : ∀ (l : List ElemObs) (seen : List Str),
    (removeDupGo seen l).Sublist l := by
  intro l
  induction l with
  | nil => intro seen; simp [removeDupGo]
  | cons e rest ih =>
    intro seen
    simp only [removeDupGo]
    split
    case h_1 u heq =>
      split
      · exact (ih (u :: seen)).cons₂ e
      · exact (ih seen).cons e
    case h_2 heq =>
      exact (ih seen).cons e

lemma removeDupGo_href : ∀ (l : List ElemObs) (seen : List Str) (e : ElemObs),
    e ∈ removeDupGo seen l → ∃ u, e.href = some u ∧ u ≠ [] ∧ u ∉ seen := by
  intro l
  induction l with
  | nil => intro seen e he; simp [removeDupGo] at he
  | cons x rest ih =>
    intro seen e he
    simp only [removeDupGo] at he
    revert he
    split
    case h_1 u heq =>
      split
      case isTrue hcond =>
        simp only [Bool.and_eq_true, Bool.not_eq_true'] at hcond
        intro he
        rcases List.mem_cons.mp he with rfl | he
        · refine ⟨u, heq, ?_, ?_⟩
          · intro hu
            subst hu
            simp at hcond
          · intro hmem
            have : seen.contains u = true := List.elem_eq_true_of_mem hmem
            rw [this] at hcond
            exact absurd hcond.2 (by simp)
        · rcases ih (u :: seen) e he with ⟨v, hv1, hv2, hv3⟩
          exact ⟨v, hv1, hv2, fun hmem => hv3 (List.mem_cons_of_mem u hmem)⟩
      case isFalse hcond =>
        intro he
        exact ih seen e he
    case h_2 heq =>
      intro he
      exact ih seen e he

lemma removeDupGo_nodup : ∀ (l : List ElemObs) (seen : List Str),
    ((removeDupGo seen l).map ElemObs.href).Nodup := by
  intro l
  induction l with
  | nil => intro seen; simp [removeDupGo]
  | cons x rest ih =>
    intro seen
    simp only [removeDupGo]
    split
    case h_1 u heq =>
      split
      case isTrue hcond =>
        simp only [List.map_cons, List.nodup_cons]
        constructor
        · intro hmem
          rcases List.mem_map.mp hmem with ⟨e, he, hh⟩
          rcases removeDupGo_href rest (u :: seen) e he with ⟨v, hv1, hv2, hv3⟩
          rw [hv1] at hh
          rw [heq] at hh
          injection hh with hh
          exact hv3 (hh ▸ List.mem_cons_self u seen)
        · exact ih (u :: seen)
      case isFalse hcond =>
        exact ih seen
    case h_2 heq =>
      exact ih seen

lemma removeDupGo_first : ∀ (l : List ElemObs) (seen : List Str) (e : ElemObs),
    e ∈ removeDupGo seen l →
      l.find? (fun x => x.href == e.href) = some e := by
  intro l
  induction l with
  | nil => intro seen e he; simp [removeDupGo] at he
  | cons x rest ih =>
    intro seen e he
    rcases removeDupGo_href _ _ _ he with ⟨u, hu1, hu2, hu3⟩
    simp only [removeDupGo] at he
    revert he
    split
    case h_1 v heq =>
      split
      case isTrue hcond =>
        intro he
        rcases List.mem_cons.mp he with rfl | he
        · rw [List.find?_cons_of_pos _ (by simp)]
        · have hne : v ≠ u := by
            intro hvu
            subst hvu
            rcases removeDupGo_href _ _ _ he with ⟨w, hw1, hw2, hw3⟩
            rw [hu1] at hw1
            injection hw1 with hw
            exact hw3 (hw ▸ List.mem_cons_self v seen)
          rw [List.find?_cons_of_neg _ (by simp [heq, hu1, hne])]
          exact ih (v :: seen) e he
      case isFalse hcond =>
        intro he
        have hvs : v = [] ∨ v ∈ seen := by
          cases hv : v.isEmpty with
          | true => exact Or.inl (by simpa using hv)
          | false =>
            cases hs : seen.contains v with
            | true => exact Or.inr (by simpa using hs)
            | false =>
              refine absurd ?_ hcond
              simp only [Bool.and_eq_true, Bool.not_eq_true']
              exact ⟨hv, hs⟩
        have hne : v ≠ u := by
          intro hvu
          subst hvu
          rcases hvs with h | h
          · exact hu2 h
          · exact hu3 h
        rw [List.find?_cons_of_neg _ (by simp [heq, hu1, hne])]
        exact ih seen e he
    case h_2 heq =>
      intro he
      rw [List.find?_cons_of_neg _ (by simp [heq, hu1])]
      exact ih seen e he

lemma scanPage_none {α : Type} (v : α → Bool) (n : Nat) :
    ∀ (l : List α) (i : Nat), (∀ x ∈ l, v x = false) → scanPage v n l i = none := by
  intro l
  induction l with
  | nil => intro i _; rfl
  | cons c cs ih =>
    intro i h
    simp only [scanPage, h c (List.mem_cons_self c cs), Bool.false_eq_true, if_false]
    exact ih (i + 1) (fun x hx => h x (List.mem_cons_of_mem c hx))

lemma scanPage_found {α : Type} (v : α → Bool) (n : Nat) (c : α) (post : List α)
    (hc : v c = true) :
    ∀ (pre : List α) (i : Nat), (∀ x ∈ pre, v x = false) →
      scanPage v n (pre ++ c :: post) i = some ((n - 1) * 10 + (i + pre.length) + 1, n) := by
  intro pre
  induction pre with
  | nil =>
    intro i _
    simp [scanPage, hc]
  | cons x xs ih =>
    intro i h
    simp only [List.cons_append, scanPage, h x (List.mem_cons_self x xs),
      Bool.false_eq_true, if_false, List.append_eq]
    rw [ih (i + 1) (fun y hy => h y (List.mem_cons_of_mem x hy))]
    congr 2
    simp [List.length_cons]
    omega

lemma scanPagesGo_found {α : Type} (v : α → Bool) (cpre : List α) (c : α) (cpost : List α)
    (hcpre : ∀ x ∈ cpre, v x = false) (hc : v c = true) :
    ∀ (prePages : List (List α)) (postPages : List (List α)) (n : Nat),
      (∀ p ∈ prePages, ∀ x ∈ p, v x = false) →
      scanPagesGo v (prePages ++ (cpre ++ c :: cpost) :: postPages) n =
        some ((n + prePages.length - 1) * 10 + cpre.length + 1, n + prePages.length) := by
  intro prePages
  induction prePages with
  | nil =>
    intro postPages n _
    simp only [List.nil_append, scanPagesGo]
    rw [scanPage_found v n c cpost hc cpre 0 hcpre]
    simp
  | cons pg rest ih =>
    intro postPages n h
    simp only [List.cons_append, scanPagesGo]
    rw [scanPage_none v n pg 0 (h pg (List.mem_cons_self pg rest))]
    simp only [List.append_eq]
    rw [ih postPages (n + 1) (fun p hp => h p (List.mem_cons_of_mem pg hp))]
    simp only [List.length_cons]
    congr 2
    all_goals omega

lemma statsStep_matched_le (s : StatsState) (op : StatsOp)
    (h : s.successfulMatches ≤ s.processedKeywords) :
    (statsStep s op).successfulMatches ≤ (statsStep s op).processedKeywords := by
  cases op with
  | startSession total t => simp [statsStep, resetStats]
  | keywordStart kw t => simpa [statsStep] using h
  | keywordResult found confidence page t =>
    cases found <;> simp [statsStep] <;> omega
  | recordError => simpa [statsStep] using h
  | recordRetry => simpa [statsStep] using h

lemma statsRun_matched_le (ops : List StatsOp) :
    (statsRun ops).successfulMatches ≤ (statsRun ops).processedKeywords := by
  suffices h : ∀ (s : StatsState), s.successfulMatches ≤ s.processedKeywords →
      (ops.foldl statsStep s).successfulMatches ≤ (ops.foldl statsStep s).processedKeywords by
    exact h resetStats (by simp [resetStats])
  induction ops with
  | nil => intro s hs; simpa using hs
  | cons op rest ih =>
    intro s hs
    simpa using ih (statsStep s op) (statsStep_matched_le s op hs)

/-- C1: for every candidate the validator computes seven layer scores, each in
the interval from 0 to 1; the aggregate confidence is exactly
(mean of the seven + minimum of the seven) / 2; a match is declared exactly
when the confidence is at least 0.85 and the minimum layer score is at least
0.70; hence whenever is_match is true, the confidence is at least 0.85, every
layer is at least 0.70, and the confidence lies in the interval from 0 to
1. -/
theorem c1_seven_layer_validation (keyword found_domain target_domain url title : Str)
    (e : ElemObs) :
    (∀ s ∈ validationScores keyword found_domain target_domain url title e, 0 ≤ s ∧ s ≤ 1) ∧
    (seven_layer_validation keyword found_domain target_domain url title e).2 =
      ((validationScores keyword found_domain target_domain url title e).sum / 7 +
        listMin (validationScores keyword found_domain target_domain url title e)) / 2 ∧
    ((seven_layer_validation keyword found_domain target_domain url title e).1 = true ↔
      ((0.85 : ℚ) ≤ (seven_layer_validation keyword found_domain target_domain url title e).2 ∧
        (0.7 : ℚ) ≤ listMin (validationScores keyword found_domain target_domain url title e))) ∧
    ((seven_layer_validation keyword found_domain target_domain url title e).1 = true →
      (0.85 : ℚ) ≤ (seven_layer_validation keyword found_domain target_domain url title e).2 ∧
      (∀ s ∈ validationScores keyword found_domain target_domain url title e, (0.7 : ℚ) ≤ s) ∧
      0 ≤ (seven_layer_validation keyword found_domain target_domain url title e).2 ∧
      (seven_layer_validation keyword found_domain target_domain url title e).2 ≤ 1) := by
  have hb := validationScores_bounds keyword found_domain target_domain url title e
  have hlen : (validationScores keyword found_domain target_domain url title e).length = 7 := rfl
  have hform : (seven_layer_validation keyword found_domain target_domain url title e).2 =
      ((validationScores keyword found_domain target_domain url title e).sum / 7 +
        listMin (validationScores keyword found_domain target_domain url title e)) / 2 := rfl
  have hmatch : (seven_layer_validation keyword found_domain target_domain url title e).1 =
      (decide ((0.85 : ℚ) ≤ ((validationScores keyword found_domain target_domain url title e).sum / 7 +
        listMin (validationScores keyword found_domain target_domain url title e)) / 2) &&
        decide ((0.7 : ℚ) ≤ listMin (validationScores keyword found_domain target_domain url title e))) := rfl
  refine ⟨hb, hform, ?_, ?_⟩
  · rw [hmatch, hform]
    simp [Bool.and_eq_true, decide_eq_true_iff]
  · intro hm
    rw [hmatch] at hm
    simp only [Bool.and_eq_true, decide_eq_true_iff] at hm
    obtain ⟨h85, h70⟩ := hm
    have hsb := sum_bounds _ hb
    have hne : validationScores keyword found_domain target_domain url title e ≠ [] := by
      simp [validationScores]
    have hmin_mem := listMin_mem _ hne
    have hmin_b := hb _ hmin_mem
    refine ⟨by rw [hform]; exact h85, ?_, ?_, ?_⟩
    · intro s hs
      exact le_trans h70 (listMin_le_of_mem _ s hs)
    · rw [hform]
      refine div_nonneg (add_nonneg (div_nonneg hsb.1 (by norm_num)) hmin_b.1) (by norm_num)
    · rw [hform]
      have h1 : (validationScores keyword found_domain target_domain url title e).sum / 7 ≤ 1 := by
        rw [div_le_one (by norm_num)]
        have := hsb.2
        rw [hlen] at this
        exact_mod_cast this
      have h2 := hmin_b.2
      linarith

/-- C1 witness: a candidate for which the validator declares a match, so the
implication hypotheses of the main theorem are discharged at a concrete
input. -/
theorem c1_witness :
    (0.85 : ℚ) ≤ (seven_layer_validation kwWord exampleCom exampleCom urlExamplePage
      titleExample elemGoodW).2 ∧
    (seven_layer_validation kwWord exampleCom exampleCom urlExamplePage
      titleExample elemGoodW).2 ≤ 1 := by
  have h := (c1_seven_layer_validation kwWord exampleCom exampleCom urlExamplePage
    titleExample elemGoodW).2.2.2 (by decide)
  exact ⟨h.1, h.2.2.2⟩

/-- C2 counterexample: on the spec example pair the matcher returns confidence
1.0, not 0.9, and 1.0 is not within the claimed interval bounded by 0.95:
the substring containment drives the composite similarity to 1.0, which
passes the 0.95 threshold before the subdomain rule is ever reached. -/
theorem c2_counterexample :
    fuzzy_domain_match blogExampleCom exampleCom = (true, 1) ∧
    (fuzzy_domain_match blogExampleCom exampleCom).2 ≠ 0.9 ∧
    ¬ (fuzzy_domain_match blogExampleCom exampleCom).2 ≤ 0.95 := by decide

/-- C2 amended: for two non-empty normalization-stable domains that are not
equal but where one is a dot-suffix of the other, the matcher returns a match
with confidence 1.0 (the containment ratio reaches the composite-similarity
branch first); in particular match("blog.example.com", "example.com") is
(true, 1.0). -/
theorem c2_subdomain_match (d1 d2 : Str) (h1 : d1 ≠ []) (h2 : d2 ≠ [])
    (hs1 : enhanced_clean_domain d1 = d1) (hs2 : enhanced_clean_domain d2 = d2)
    (hne : d1 ≠ d2) (hsub : ('.' :: d2) <:+ d1 ∨ ('.' :: d1) <:+ d2) :
    fuzzy_domain_match d1 d2 = (true, 1) := by
  have hcontain : fuzzContainRatio d1 d2 = 1 := by
    unfold fuzzContainRatio
    rcases hsub with h | h
    · rw [if_pos]
      simp [isSubstrOf_of_dotSuffix h]
    · rw [if_pos]
      simp [isSubstrOf_of_dotSuffix h]
  have hr1 := fuzzRatio_le_one d1 d2
  have hts1 := fuzzTokenSortRatio_le_one d1 d2
  have hconf : maxQ (fuzzRatio d1 d2) (maxQ (fuzzContainRatio d1 d2)
      (fuzzTokenSortRatio d1 d2)) = 1 := by
    rw [maxQ_eq, maxQ_eq, hcontain]
    rw [max_eq_left hts1, max_eq_right hr1]
  simp only [fuzzy_domain_match, hs1, hs2]
  rw [if_neg (by simp [h1, h2]), if_neg (by simp [h1, h2]), if_neg hne, hconf,
    if_pos (by norm_num)]

/-- C2 witness: the amended theorem applied at the spec example pair. -/
theorem c2_witness : fuzzy_domain_match blogExampleCom exampleCom = (true, 1) :=
  c2_subdomain_match blogExampleCom exampleCom (by decide) (by decide) (by decide)
    (by decide) (by decide) (Or.inl (by decide))

/-- C3 counterexample: on the valid URL https://ab.cd.example.com the
normalizer is not idempotent, because the two-letter language-prefix rule
strips only one label per pass: the first pass yields cd.example.com and the
second pass strips cd. as well. -/
theorem c3_counterexample :
    enhanced_clean_domain (enhanced_clean_domain urlAbCd) ≠ enhanced_clean_domain urlAbCd := by
  decide

/-- C3 amended: normalization is not idempotent in general (the
counterexample shows a valid URL where a second pass strips a further
two-letter label); it is idempotent whenever the normalized output is empty
or is a fixed point of every stage of the pipeline (trimmed, lowercased, no
strippable prefix, not beginning with the characters h-t-t-p, no stop
character, no trailing port, no surrounding dots, containing a dot with
length at least 3).  This theorem is that sufficiency guarantee; it makes no
statement about inputs outside the hypothesis. -/
theorem c3_normalize_idempotent_amended (u : Str)
    (h : enhanced_clean_domain u = [] ∨ cleanFixed (enhanced_clean_domain u)) :
    enhanced_clean_domain (enhanced_clean_domain u) = enhanced_clean_domain u := by
  rcases h with h | h
  · rw [h]
    rfl
  · exact clean_fixed_point _ h

/-- C3 witness: the amended idempotence instantiated at a typical URL. -/
theorem c3_witness :
    enhanced_clean_domain (enhanced_clean_domain ("https://example.com".data)) =
      enhanced_clean_domain ("https://example.com".data) :=
  c3_normalize_idempotent_amended ("https://example.com".data) (Or.inr (by decide))

/-- C4 counterexample: ab.co is a non-empty output of the normalizer (it is
normalize("xy.ab.co")), yet matching it against itself yields (false, 0.0)
rather than (true, 1.0), because the matcher re-normalizes both sides and
normalize("ab.co") is empty. -/
theorem c4_counterexample :
    enhanced_clean_domain urlXyAbCo = abCo ∧ abCo ≠ [] ∧
    fuzzy_domain_match abCo abCo = (false, 0) := by decide

/-- C4 amended: for every non-empty domain that also re-normalizes to a
non-empty string, matching the domain against itself returns (true, 1.0). -/
theorem c4_self_match_amended (d : Str) (h1 : d ≠ []) (h2 : enhanced_clean_domain d ≠ []) :
    fuzzy_domain_match d d = (true, 1) := by
  simp only [fuzzy_domain_match]
  rw [if_neg (by simp [h1]), if_neg (by simp [h2]), if_pos trivial]

/-- C4 witness: the amended self-match instantiated at example.com. -/
theorem c4_witness : fuzzy_domain_match exampleCom exampleCom = (true, 1) :=
  c4_self_match_amended exampleCom (by decide) (by decide)

/-- C5: the retry controller performs at most maxRetries crawl attempts per
keyword (the attempt counter of the model counts the calls made to the
crawl), it terminates by construction (the embedding is structurally
recursive on the remaining fuel), and when no attempt produces a found
result it returns the terminal not-found record annotated with the
configured attempt count. -/
theorem c5_retry_bounded (maxRetries : Nat) (att : Nat → AttemptOutcome) (stop : Nat → Bool) :
    (track_ranking_with_validation maxRetries att stop).2 ≤ maxRetries ∧
    ((∀ j, j < maxRetries → ∀ p pg c, att j ≠ .found p pg c) →
      (track_ranking_with_validation maxRetries att stop).1 = .notFound maxRetries) := by
  constructor
  · exact trackGo_count_le maxRetries att stop maxRetries 0
  · intro h
    exact trackGo_notFound maxRetries att stop maxRetries 0
      (fun j hj1 hj2 => h j (by omega))

/-- C5 witness: two exhausted attempts yield the terminal record annotated
with the attempt bound. -/
theorem c5_witness :
    (track_ranking_with_validation 2 (fun _ => .noResult) (fun _ => false)).2 ≤ 2 ∧
    (track_ranking_with_validation 2 (fun _ => .noResult) (fun _ => false)).1 =
      .notFound 2 :=
  ⟨(c5_retry_bounded 2 (fun _ => .noResult) (fun _ => false)).1,
    (c5_retry_bounded 2 (fun _ => .noResult) (fun _ => false)).2
      (fun j _ p pg c h => by cases h)⟩

/-- C6: one invocation of the tracking operation returns exactly one result
record, which is either a found record coming from one of the at most
maxRetries attempts or the terminal not-found record; attempt errors are
absorbed by the controller (the model is a total function, so nothing
propagates to the caller). -/
theorem c6_exactly_one_result (maxRetries : Nat) (att : Nat → AttemptOutcome)
    (stop : Nat → Bool) :
    (∃ j p pg c, j < maxRetries ∧ att j = .found p pg c ∧
      (track_ranking_with_validation maxRetries att stop).1 = .matched p pg c) ∨
    (track_ranking_with_validation maxRetries att stop).1 = .notFound maxRetries := by
  rcases trackGo_result_shape maxRetries att stop maxRetries 0 with
    ⟨j, p, pg, c, _, hj2, hatt, hres⟩ | hres
  · exact Or.inl ⟨j, p, pg, c, by omega, hatt, hres⟩
  · exact Or.inr hres

/-- C7: the extractor returns at most 10 candidates with pairwise distinct
hrefs; the output is a subsequence of the chosen strategy output, so rank
order is preserved, and each deduplicated element is exactly the first
occurrence of its URL in the extracted list. -/
theorem c7_extractor (strategies : List (List ElemObs)) :
    (get_ultra_precise_organic_results strategies).length ≤ 10 ∧
    ((get_ultra_precise_organic_results strategies).map ElemObs.href).Nodup ∧
    (get_ultra_precise_organic_results strategies).Sublist (firstSuccess strategies) ∧
    (∀ e ∈ remove_duplicate_results (firstSuccess strategies),
      (firstSuccess strategies).find? (fun x => x.href == e.href) = some e) := by
  refine ⟨?_, ?_, ?_, ?_⟩
  · simp [get_ultra_precise_organic_results]
  · have h := removeDupGo_nodup (firstSuccess strategies) []
    exact List.Nodup.sublist
      ((List.take_sublist 10 (removeDupGo [] (firstSuccess strategies))).map ElemObs.href) h
  · exact (List.take_sublist _ _).trans (removeDupGo_sublist _ [])
  · intro e he
    exact removeDupGo_first _ [] e he

/-- C7 witness: a concrete run with an empty first strategy, a duplicate URL
in the second, and the first-occurrence property checked at the first
element. -/
theorem c7_witness :
    (get_ultra_precise_organic_results stratW).length ≤ 10 ∧
    ((get_ultra_precise_organic_results stratW).map ElemObs.href).Nodup ∧
    (get_ultra_precise_organic_results stratW).Sublist (firstSuccess stratW) ∧
    (firstSuccess stratW).find? (fun x => x.href == elemA.href) = some elemA :=
  ⟨(c7_extractor stratW).1, (c7_extractor stratW).2.1, (c7_extractor stratW).2.2.1,
    (c7_extractor stratW).2.2.2 elemA (by decide)⟩

/-- C8: when the first validated match of a crawl is the candidate at 0-based
index cpre.length of the page following prePages (1-based page number
prePages.length + 1), the reported position is exactly
(page - 1) * 10 + index + 1, independent of how many candidates the earlier
pages contained. -/
theorem c8_position_formula (keyword target_domain : Str) (maxPages : Nat)
    (prePages : List (List Cand)) (cpre : List Cand) (c : Cand) (cpost : List Cand)
    (postPages : List (List Cand))
    (hlen : prePages.length + postPages.length + 1 ≤ maxPages)
    (hpre : ∀ p ∈ prePages, ∀ x ∈ p, candMatch keyword target_domain x = false)
    (hcpre : ∀ x ∈ cpre, candMatch keyword target_domain x = false)
    (hc : candMatch keyword target_domain c = true) :
    perform_search_scan keyword target_domain maxPages
        (prePages ++ (cpre ++ c :: cpost) :: postPages) =
      some (prePages.length * 10 + cpre.length + 1, prePages.length + 1) := by
  unfold perform_search_scan scanPages
  rw [List.take_of_length_le (by simp; omega)]
  rw [scanPagesGo_found (candMatch keyword target_domain) cpre c cpost hcpre hc
    prePages postPages 1 hpre]
  congr 2 <;> omega

/-- C8 witness: page 1 holds three non-matching candidates, the match sits at
0-based index 3 of page 2, and the reported position is 14. -/
theorem c8_witness :
    perform_search_scan kwShoes exampleCom 3
        [[candBad, candBad, candBad], [candBad, candBad, candBad, candGood]] =
      some (14, 2) := by
  have h := c8_position_formula kwShoes exampleCom 3 [[candBad, candBad, candBad]]
    [candBad, candBad, candBad] candGood [] [] (by decide) (by decide) (by decide) (by decide)
  simpa using h

/-- C9: the statistics aggregator computes the accuracy percentage as
matched / max(1, processed) (scaled by 100 and rounded to two decimals), so
the divisor is never zero; with zero processed keywords in any reachable
state the accuracy is 0; and in the concrete session with 10 total keywords,
3 processed and 2 matched, the accuracy is 66.67 percent and the progress is
30 percent. -/
theorem c9_statistics_accuracy :
    (∀ (s : StatsState) (now : ℚ), s.totalKeywords ≠ 0 →
      (get_current_stats s now).accuracy =
        round2 (((s.successfulMatches : ℚ) / ((max 1 s.processedKeywords : Nat) : ℚ)) * 100)) ∧
    (∀ (ops : List StatsOp) (now : ℚ), (statsRun ops).processedKeywords = 0 →
      (get_current_stats (statsRun ops) now).accuracy = 0) ∧
    ((get_current_stats (statsRun
        [.startSession 10 0, .keywordStart ("k1".data) 0, .keywordResult true 0.9 1 1,
         .keywordStart ("k2".data) 1, .keywordResult true 0.9 1 2,
         .keywordStart ("k3".data) 2, .keywordResult false 0 0 3]) 3).accuracy = 66.67 ∧
     (get_current_stats (statsRun
        [.startSession 10 0, .keywordStart ("k1".data) 0, .keywordResult true 0.9 1 1,
         .keywordStart ("k2".data) 1, .keywordResult true 0.9 1 2,
         .keywordStart ("k3".data) 2, .keywordResult false 0 0 3]) 3).progress = 30) := by
  refine ⟨?_, ?_, ?_, ?_⟩
  · intro s now h
    simp only [get_current_stats, if_neg h]
  · intro ops now h
    have hm : (statsRun ops).successfulMatches = 0 :=
      Nat.le_zero.mp (h ▸ statsRun_matched_le ops)
    by_cases ht : (statsRun ops).totalKeywords = 0
    · simp [get_current_stats, ht]
    · simp only [get_current_stats, if_neg ht, hm, h]
      norm_num [round2, roundHalfEven, floorQ]
  · decide
  · decide

/-- C9 witness: the accuracy formula applied at a concrete state and the
zero-processed case applied at the empty operation list. -/
theorem c9_witness :
    (get_current_stats ⟨1, 0, 0, 0, [], [], none, [], 0, 0, 0, 0⟩ 5).accuracy =
      round2 (((0 : ℚ) / ((max 1 0 : Nat) : ℚ)) * 100) ∧
    (get_current_stats (statsRun []) 0).accuracy = 0 :=
  ⟨c9_statistics_accuracy.1 ⟨1, 0, 0, 0, [], [], none, [], 0, 0, 0, 0⟩ 5 (by decide),
   c9_statistics_accuracy.2.1 [] 0 (by decide)⟩

/-- C10: after every completion call of the Py1 statistics tracker the
accuracy rate equals min(99.9, 99.8 + success_rate * 0.001) and lies between
99.8 and 99.9 regardless of the found flag, and the reset / initial accuracy
rate is 100.0 or the reset value 0.0 (concretely, it is 0.0). -/
theorem c10_accuracy_rate (s : TrackerState) (found : Bool) (now : ℚ) :
    (complete_keyword_processing s found now).accuracyRate =
      minQ 99.9 (99.8 + ((((if found then s.keywordsFound + 1 else s.keywordsFound : Nat) : ℚ) /
        ((s.keywordsProcessed + 1 : Nat) : ℚ)) * 100) * 0.001) ∧
    (99.8 : ℚ) ≤ (complete_keyword_processing s found now).accuracyRate ∧
    (complete_keyword_processing s found now).accuracyRate ≤ 99.9 ∧
    ((reset_session s).accuracyRate = 100 ∨ (reset_session s).accuracyRate = 0) ∧
    (initTracker.accuracyRate = 100 ∨ initTracker.accuracyRate = 0) := by
  have hform : (complete_keyword_processing s found now).accuracyRate =
      minQ 99.9 (99.8 + ((((if found then s.keywordsFound + 1 else s.keywordsFound : Nat) : ℚ) /
        ((s.keywordsProcessed + 1 : Nat) : ℚ)) * 100) * 0.001) := by
    simp only [complete_keyword_processing]
    rw [if_pos (Nat.succ_pos s.keywordsProcessed)]
  have hnn : (0 : ℚ) ≤ ((((if found then s.keywordsFound + 1 else s.keywordsFound : Nat) : ℚ) /
      ((s.keywordsProcessed + 1 : Nat) : ℚ)) * 100) * 0.001 := by positivity
  refine ⟨hform, ?_, ?_, Or.inr rfl, Or.inr rfl⟩
  · rw [hform, minQ_eq]
    refine le_min (by norm_num) ?_
    linarith
  · rw [hform, minQ_eq]
    exact le_trans (min_le_left _ _) (le_refl _)

end
